import Mathlib

/-!
Verification of the multithreaded-cards game engine (src/main.rs).

The Rust source is shallowly embedded: `Card(usize)` becomes `Nat` (equality
is by rank), a `Deck` is its number together with the list of its cards with
the FRONT of the `VecDeque` at the head of the list, a `Player` stores indices
into the deck list in place of the `Arc<Mutex<Deck>>` references, and the
uniform random choice of `SliceRandom::choose` is modelled by an arbitrary
natural number reduced modulo the candidate count.  The reference engine runs
turns sequentially (one player's turn at a time), so `take_turn` is modelled
as a function on the whole game state.
-/

namespace Cards

abbrev Card := Nat

structure Deck where
  number : Nat
  cards : List Card
  deriving Repr, DecidableEq

structure Player where
  number : Nat
  drawDeck : Nat
  discardDeck : Nat
  hand : List Card
  deriving Repr, DecidableEq

structure GameState where
  decks : List Deck
  players : List Player
  deriving Repr, DecidableEq

/-- `Player::has_winning_hand`: `self.hand.windows(2).all(|w| w[0] == w[1])`.
`windows(2)` of a list is exactly the list zipped with its own tail. -/
def has_winning_hand (hand : List Card) : Bool :=
  (hand.zip hand.tail).all (fun w => w.1 == w.2)

/-- `Player::select_discard_card`: filter the hand to the cards whose rank is
not the player's number, choose one of them (the random draw is modelled by
`k`, reduced modulo the candidate count; `choose` returns `None` exactly when
the candidate list is empty), and return the position of the first hand card
equal to the chosen one. -/
def select_discard_card (number : Nat) (hand : List Card) (k : Nat) : Option Nat :=
  let possibles := hand.filter (fun c => c != number)
  match possibles[k % possibles.length]? with
  | some chosen => hand.findIdx? (fun c => c == chosen)
  | none => none

/-- `Player::take_turn`.  Lock the draw deck and pop its front card; if the
deck is empty the turn ends with no state change.  Otherwise run
`select_discard_card`: on `Some(idx)` remove the card at `idx` from the hand
and push the drawn card to the back of the hand, discarding the removed card;
on `None` discard the drawn card itself.  Finally push the discard card to the
back of the discard deck.  Deck references are modelled as indices into
`s.decks`; a dangling index (impossible in the Rust program, where the
references always exist) leaves the state unchanged. -/
def take_turn (s : GameState) (i k : Nat) : GameState :=
  match s.players[i]? with
  | none => s
  | some p =>
    match s.decks[p.drawDeck]? with
    | none => s
    | some dd =>
      match dd.cards with
      | [] => s
      | nc :: rest =>
        let decks1 := s.decks.set p.drawDeck { dd with cards := rest }
        let res :=
          match select_discard_card p.number p.hand k with
          | some di => (p.hand.eraseIdx di ++ [nc], p.hand.getD di 0)
          | none => (p.hand, nc)
        let players1 := s.players.set i { p with hand := res.1 }
        match decks1[p.discardDeck]? with
        | none => s
        | some cd =>
          { decks := decks1.set p.discardDeck { cd with cards := cd.cards ++ [res.2] },
            players := players1 }

theorem list_set_self {α : Type} : ∀ (l : List α) (i : Nat) (x : α),
    l[i]? = some x → l.set i x = l := by
  intro l
  induction l with
  | nil => intro i x h; simp at h
  | cons a t ih =>
    intro i x h
    cases i with
    | zero => simp at h; simp [h]
    | succ j => simp at h; simp [ih j x h]

theorem select_discard_card_spec {number : Nat} {hand : List Card} {k i : Nat}
    (h : select_discard_card number hand k = some i) :
    ∃ hi : i < hand.length, hand[i] ≠ number ∧
      ∀ j (hj : j < i), hand.get ⟨j, Nat.lt_trans hj hi⟩ ≠ hand[i] := by
  simp only [select_discard_card] at h
  cases hp : (hand.filter (fun c => c != number))[k % (hand.filter (fun c => c != number)).length]? with
  | none => rw [hp] at h; exact absurd h (by simp)
  | some chosen =>
    rw [hp] at h
    have hchosen_mem : chosen ∈ hand.filter (fun c => c != number) := by
      rcases List.getElem?_eq_some_iff.mp hp with ⟨hlt, hval⟩
      exact hval ▸ List.getElem_mem hlt
    have hchosen : chosen ∈ hand ∧ chosen ≠ number := by
      have := List.mem_filter.mp hchosen_mem
      simpa using this
    rcases List.findIdx?_eq_some_iff_getElem.mp h with ⟨hi, hpi, hprev⟩
    refine ⟨hi, ?_, ?_⟩
    · have : hand[i] = chosen := by simpa using hpi
      rw [this]; exact hchosen.2
    · intro j hj
      have hne := hprev j hj
      have : hand[i] = chosen := by simpa using hpi
      rw [this]
      simpa using hne

theorem select_discard_card_none_of_all_own {number : Nat} {hand : List Card} (k : Nat)
    (h : ∀ c ∈ hand, c = number) :
    select_discard_card number hand k = none := by
  unfold select_discard_card
  have hfil : hand.filter (fun c => c != number) = [] := by
    apply List.filter_eq_nil_iff.mpr
    intro c hc
    simp [h c hc]
  simp [hfil]

theorem has_winning_hand_iff_chain (hand : List Card) :
    has_winning_hand hand = true ↔ List.Chain' (fun a b => a = b) hand := by
  induction hand with
  | nil => simp [has_winning_hand]
  | cons a t ih =>
    cases t with
    | nil => simp [has_winning_hand]
    | cons b t' =>
      simp only [has_winning_hand, List.tail_cons, List.zip_cons_cons, List.all_cons,
        Bool.and_eq_true, beq_iff_eq, List.chain'_cons] at *
      exact and_congr Iff.rfl ih

/-- C1: `has_winning_hand` is true iff every adjacent pair of cards in the
hand (in current hand order) has equal rank; for a 4-card hand this holds iff
all 4 ranks are identical; it is false for `[1,2,1,1]`, true for `[3,3,3,3]`,
and trivially true for a single-card hand. -/
theorem C1_has_winning_hand_adjacent :
    (∀ hand : List Card, has_winning_hand hand = true ↔ List.Chain' (fun a b => a = b) hand) ∧
    (∀ a b c d : Card, has_winning_hand [a, b, c, d] = true ↔ (a = b ∧ b = c ∧ c = d)) ∧
    has_winning_hand [1, 2, 1, 1] = false ∧
    has_winning_hand [3, 3, 3, 3] = true ∧
    (∀ c : Card, has_winning_hand [c] = true) := by
  refine ⟨has_winning_hand_iff_chain, ?_, by decide, by decide, ?_⟩
  · intro a b c d
    simp [has_winning_hand, and_assoc]
  · intro c
    simp [has_winning_hand]

theorem count_eraseIdx_of_getElem_ne {hand : List Card} {di : Nat} {a : Card}
    (hdi : di < hand.length) (hne : hand[di] ≠ a) :
    (hand.eraseIdx di).count a = hand.count a := by
  have h2 : hand = hand.take di ++ hand[di] :: hand.drop (di + 1) := by
    conv_lhs => rw [← List.take_append_drop di hand]
    rw [List.drop_eq_getElem_cons hdi]
  have h3 : hand.count a = (hand.take di).count a + (hand.drop (di + 1)).count a := by
    conv_lhs => rw [h2]
    rw [List.count_append, List.count_cons]
    have hb : (hand[di] == a) = false := by simpa using hne
    simp [hb]
  rw [List.eraseIdx_eq_take_drop_succ, List.count_append, h3]

/-- C7: a turn taken when the player's draw deck is empty is a complete no-op
on the game state: no deck changes, the hand is unchanged, no discard. -/
theorem C7_empty_draw_noop (s : GameState) (i k : Nat) (p : Player) (dd : Deck)
    (hp : s.players[i]? = some p) (hd : s.decks[p.drawDeck]? = some dd)
    (hc : dd.cards = []) :
    take_turn s i k = s := by
  simp [take_turn, hp, hd, hc]

theorem C7_witness :
    take_turn ⟨[⟨1, []⟩], [⟨1, 0, 0, [2, 3]⟩]⟩ 0 0 = ⟨[⟨1, []⟩], [⟨1, 0, 0, [2, 3]⟩]⟩ :=
  C7_empty_draw_noop ⟨[⟨1, []⟩], [⟨1, 0, 0, [2, 3]⟩]⟩ 0 0 ⟨1, 0, 0, [2, 3]⟩ ⟨1, []⟩ rfl rfl rfl

/-- C2: if every card held by the player has the player's own number as rank
(so the candidate set of `select_discard_card` is empty), then whatever the
random choice, a turn drawing `nc` from a non-empty draw deck discards exactly
`nc` and leaves every hand unchanged. -/
theorem C2_all_own_rank_pass_through (s : GameState) (i k : Nat) (p : Player)
    (dd cd : Deck) (nc : Card) (rest : List Card)
    (hp : s.players[i]? = some p)
    (hall : ∀ c ∈ p.hand, c = p.number)
    (hd : s.decks[p.drawDeck]? = some dd)
    (hc : dd.cards = nc :: rest)
    (hcd : (s.decks.set p.drawDeck { dd with cards := rest })[p.discardDeck]? = some cd) :
    take_turn s i k =
      { decks := (s.decks.set p.drawDeck { dd with cards := rest }).set p.discardDeck
          { cd with cards := cd.cards ++ [nc] },
        players := s.players } := by
  have hsel := @select_discard_card_none_of_all_own p.number p.hand k hall
  simp [take_turn, hp, hd, hc, hsel, hcd, list_set_self s.players i p hp]

theorem C2_witness :
    take_turn ⟨[⟨1, [7, 9]⟩, ⟨2, [5]⟩], [⟨1, 0, 1, [1, 1, 1, 1]⟩]⟩ 0 3 =
      { decks := (([⟨1, [7, 9]⟩, ⟨2, [5]⟩] : List Deck).set 0 ⟨1, [9]⟩).set 1 ⟨2, [5, 7]⟩,
        players := [⟨1, 0, 1, [1, 1, 1, 1]⟩] } :=
  C2_all_own_rank_pass_through ⟨[⟨1, [7, 9]⟩, ⟨2, [5]⟩], [⟨1, 0, 1, [1, 1, 1, 1]⟩]⟩ 0 3
    ⟨1, 0, 1, [1, 1, 1, 1]⟩ ⟨1, [7, 9]⟩ ⟨2, [5]⟩ 7 [9] rfl (by decide) rfl rfl rfl

/-- C8: the acting player's hand has the same number of cards at the end of a
turn as at its start (whatever the random choice and deck contents), and the
transient hand values built inside `take_turn` never exceed the starting size
plus one. -/
theorem C8_hand_size_invariant (s : GameState) (i k : Nat) (p : Player)
    (hp : s.players[i]? = some p) :
    (∃ p', (take_turn s i k).players[i]? = some p' ∧ p'.hand.length = p.hand.length) ∧
    (∀ di, select_discard_card p.number p.hand k = some di →
      (p.hand.eraseIdx di).length ≤ p.hand.length ∧
      ∀ nc : Card, (p.hand.eraseIdx di ++ [nc]).length ≤ p.hand.length + 1) := by
  constructor
  · have hplen : i < s.players.length := (List.getElem?_eq_some_iff.mp hp).1
    cases hd : s.decks[p.drawDeck]? with
    | none => exact ⟨p, by simp [take_turn, hp, hd], rfl⟩
    | some dd =>
      cases hc : dd.cards with
      | nil => exact ⟨p, by simp [take_turn, hp, hd, hc], rfl⟩
      | cons nc rest =>
        cases hcd : (s.decks.set p.drawDeck { dd with cards := rest })[p.discardDeck]? with
        | none => exact ⟨p, by simp [take_turn, hp, hd, hc, hcd], rfl⟩
        | some cd =>
          cases hsel : select_discard_card p.number p.hand k with
          | none =>
            refine ⟨p, ?_, rfl⟩
            simp [take_turn, hp, hd, hc, hsel, hcd, list_set_self s.players i p hp]
          | some di =>
            rcases select_discard_card_spec hsel with ⟨hdi, -, -⟩
            refine ⟨{ p with hand := p.hand.eraseIdx di ++ [nc] }, ?_, ?_⟩
            · simp [take_turn, hp, hd, hc, hsel, hcd, List.getElem?_set_self hplen]
            · simp only [List.length_append, List.length_eraseIdx_of_lt hdi]
              simp
              omega
  · intro di hsel
    rcases select_discard_card_spec hsel with ⟨hdi, -, -⟩
    constructor
    · exact List.length_eraseIdx_le p.hand di
    · intro nc
      simp only [List.length_append, List.length_eraseIdx_of_lt hdi,
        List.length_cons, List.length_nil]
      omega

theorem C8_witness :
    (∃ p', (take_turn ⟨[⟨1, [9]⟩, ⟨2, []⟩], [⟨1, 0, 1, [1, 2, 3, 4]⟩]⟩ 0 0).players[0]? = some p' ∧
      p'.hand.length = ([1, 2, 3, 4] : List Card).length) ∧
    (∀ di, select_discard_card 1 [1, 2, 3, 4] 0 = some di →
      (([1, 2, 3, 4] : List Card).eraseIdx di).length ≤ ([1, 2, 3, 4] : List Card).length ∧
      ∀ nc : Card, (([1, 2, 3, 4] : List Card).eraseIdx di ++ [nc]).length ≤
        ([1, 2, 3, 4] : List Card).length + 1) :=
  C8_hand_size_invariant ⟨[⟨1, [9]⟩, ⟨2, []⟩], [⟨1, 0, 1, [1, 2, 3, 4]⟩]⟩ 0 0
    ⟨1, 0, 1, [1, 2, 3, 4]⟩ rfl

/-- C10: `select_discard_card` only ever returns the index of a hand card
whose rank differs from the player's number, that index is the first hand
position holding the chosen rank, and consequently the count of own-rank
cards in a player's hand never decreases across their own turn. -/
theorem C10_own_rank_never_discarded :
    (∀ (number : Nat) (hand : List Card) (k i : Nat),
      select_discard_card number hand k = some i →
      ∃ hi : i < hand.length, hand[i] ≠ number ∧
        ∀ j (hj : j < i), hand.get ⟨j, Nat.lt_trans hj hi⟩ ≠ hand[i]) ∧
    (∀ (s : GameState) (i k : Nat) (p : Player), s.players[i]? = some p →
      ∃ p', (take_turn s i k).players[i]? = some p' ∧ p'.number = p.number ∧
        p.hand.count p.number ≤ p'.hand.count p.number) := by
  constructor
  · intro number hand k i h
    exact select_discard_card_spec h
  · intro s i k p hp
    have hplen : i < s.players.length := (List.getElem?_eq_some_iff.mp hp).1
    cases hd : s.decks[p.drawDeck]? with
    | none => exact ⟨p, by simp [take_turn, hp, hd], rfl, Nat.le_refl _⟩
    | some dd =>
      cases hc : dd.cards with
      | nil => exact ⟨p, by simp [take_turn, hp, hd, hc], rfl, Nat.le_refl _⟩
      | cons nc rest =>
        cases hcd : (s.decks.set p.drawDeck { dd with cards := rest })[p.discardDeck]? with
        | none => exact ⟨p, by simp [take_turn, hp, hd, hc, hcd], rfl, Nat.le_refl _⟩
        | some cd =>
          cases hsel : select_discard_card p.number p.hand k with
          | none =>
            refine ⟨p, ?_, rfl, Nat.le_refl _⟩
            simp [take_turn, hp, hd, hc, hsel, hcd, list_set_self s.players i p hp]
          | some di =>
            rcases select_discard_card_spec hsel with ⟨hdi, hne, -⟩
            refine ⟨{ p with hand := p.hand.eraseIdx di ++ [nc] }, ?_, rfl, ?_⟩
            · simp [take_turn, hp, hd, hc, hsel, hcd, List.getElem?_set_self hplen]
            · simp only [List.count_append, count_eraseIdx_of_getElem_ne hdi hne]
              exact Nat.le_add_right _ _

theorem C10_witness :
    (∃ p', (take_turn ⟨[⟨1, [9]⟩, ⟨2, []⟩], [⟨1, 0, 1, [1, 2, 1, 1]⟩]⟩ 0 0).players[0]? = some p' ∧
      p'.number = 1 ∧
      ([1, 2, 1, 1] : List Card).count 1 ≤ p'.hand.count 1) :=
  C10_own_rank_never_discarded.2 ⟨[⟨1, [9]⟩, ⟨2, []⟩], [⟨1, 0, 1, [1, 2, 1, 1]⟩]⟩ 0 0
    ⟨1, 0, 1, [1, 2, 1, 1]⟩ rfl

/-- The fresh decks created in `main`:
`(1..=n).map(|i| Deck { number: i, cards: VecDeque::new() })`. -/
def initialDecks (n : Nat) : List Deck :=
  (List.range' 1 n).map (fun i => { number := i, cards := [] })

/-- `decks[j].cards.push_front(c)` (the deck-dealing write). -/
def pushFrontAt (decks : List Deck) (j : Nat) (c : Card) : List Deck :=
  match decks[j]? with
  | some d => decks.set j { d with cards := c :: d.cards }
  | none => decks

/-- The deck-dealing loop of `main`:
`for i in (4*n)..(8*n) { decks[i % n].cards.push_front(pack.remove(4*n)); }`.
`m` counts the remaining iterations, `i` is the loop variable.  `Vec::remove`
panics on an out-of-range index, which cannot happen for a validated pack; the
model skips the iteration in that case. -/
def dealDecksLoop (n : Nat) : Nat → Nat → List Card × List Deck → List Card × List Deck
  | 0, _, st => st
  | m + 1, i, (pack, decks) =>
    match pack[4 * n]? with
    | some c => dealDecksLoop n m (i + 1) (pack.eraseIdx (4 * n), pushFrontAt decks (i % n) c)
    | none => dealDecksLoop n m (i + 1) (pack, decks)

def dealDecks (n : Nat) (pack : List Card) : List Card × List Deck :=
  dealDecksLoop n (4 * n) (4 * n) (pack, initialDecks n)

/-- The players created in `main`: player `i` (1-indexed) draws from the deck
at index `i - 1` (the Deck numbered `i`) and discards to the deck at index
`i % n` (the Deck numbered `(i % n) + 1`), starting with an empty hand. -/
def initialPlayers (n : Nat) : List Player :=
  (List.range' 1 n).map (fun i =>
    { number := i, drawDeck := i - 1, discardDeck := i % n, hand := [] })

/-- `players[j].hand.push(c)` (the hand-dealing write). -/
def pushHandAt (players : List Player) (j : Nat) (c : Card) : List Player :=
  match players[j]? with
  | some p => players.set j { p with hand := p.hand ++ [c] }
  | none => players

/-- The hand-dealing loop of `main`:
`for i in (0..4*n).rev() { players[i % n].hand.push(pack.pop().expect(..)); }`.
The fuel argument is `i + 1`, so the body runs for `i = 4*n - 1, …, 0`;
`Vec::pop` removes the back card.  The `expect` panic cannot happen for a
validated pack; the model skips the push in that case. -/
def dealHandsLoop (n : Nat) : Nat → List Card × List Player → List Card × List Player
  | 0, st => st
  | i + 1, (pack, players) =>
    match pack.getLast? with
    | some c => dealHandsLoop n i (pack.dropLast, pushHandAt players (i % n) c)
    | none => dealHandsLoop n i (pack, players)

/-- The full deal of `main`: deal the top half of the pack into the decks,
construct the players, then deal the bottom half of the pack into the hands. -/
def deal (n : Nat) (pack : List Card) : GameState :=
  let st := dealDecks n pack
  let st2 := dealHandsLoop n (4 * n) (st.1, initialPlayers n)
  { decks := st.2, players := st2.2 }

/-- The deck contents the spec prescribes (0-based deck index `j`): the pack
cards at positions `4*n .. 8*n - 1` congruent to `j` modulo `n`, each pushed
to the FRONT in ascending position order — i.e. that position sequence
reversed. -/
def specDeckCards (n : Nat) (pack : List Card) (j : Nat) : List Card :=
  (((List.range' (4 * n) (4 * n)).filter (fun p => p % n == j)).map
    (fun p => pack.getD p 0)).reverse

/-- The hand contents the spec prescribes (0-based player index `j`): the pack
cards at positions `0 .. 4*n - 1` congruent to `j` modulo `n`, dealt in
reverse position order, each pushed to the BACK of the hand. -/
def specHandCards (n : Nat) (pack : List Card) (j : Nat) : List Card :=
  (((List.range (4 * n)).filter (fun p => p % n == j)).map
    (fun p => pack.getD p 0)).reverse

/-- Proof-side recursion: process the cards of `B` in order, pushing card at
loop counter `i` to the front of deck `i % n`. -/
def dealSeq (n : Nat) : Nat → List Card → List Deck → List Deck
  | _, [], decks => decks
  | i, c :: B, decks => dealSeq n (i + 1) B (pushFrontAt decks (i % n) c)

/-- Proof-side recursion computing which cards land in front of deck `j`. -/
def pickCards (n : Nat) : Nat → List Card → Nat → List Card
  | _, [], _ => []
  | i, c :: B, j => pickCards n (i + 1) B j ++ (if i % n == j then [c] else [])

/-- Proof-side recursion computing the cards appended to hand `j` by the
hand-dealing loop running down from `i - 1` to `0` over pack prefix `P`. -/
def handPick (n : Nat) : Nat → List Card → Nat → List Card
  | 0, _, _ => []
  | i + 1, P, j => (if i % n == j then [P.getD i 0] else []) ++ handPick n i P j

theorem eraseIdx_append_cons {α : Type} : ∀ (A : List α) (c : α) (B : List α),
    (A ++ c :: B).eraseIdx A.length = A ++ B := by
  intro A
  induction A with
  | nil => intro c B; simp
  | cons a A ih => intro c B; simp [ih]

theorem getElem?_append_cons {α : Type} (A : List α) (c : α) (B : List α) :
    (A ++ c :: B)[A.length]? = some c := by
  rw [List.getElem?_append_right (Nat.le_refl _)]
  simp

theorem dealDecksLoop_bridge (n : Nat) (A : List Card) (hA : A.length = 4 * n) :
    ∀ (B : List Card) (i : Nat) (decks : List Deck),
    dealDecksLoop n B.length i (A ++ B, decks) = (A, dealSeq n i B decks) := by
  intro B
  induction B with
  | nil => intro i decks; simp [dealDecksLoop, dealSeq]
  | cons c B ih =>
    intro i decks
    have h1 : (A ++ c :: B)[4 * n]? = some c := hA ▸ getElem?_append_cons A c B
    have h2 : (A ++ c :: B).eraseIdx (4 * n) = A ++ B := hA ▸ eraseIdx_append_cons A c B
    simp only [List.length_cons, dealDecksLoop, h1, h2, dealSeq]
    exact ih (i + 1) (pushFrontAt decks (i % n) c)

theorem pushFrontAt_getElem?_ne (decks : List Deck) (j j' : Nat) (c : Card) (hne : j' ≠ j) :
    (pushFrontAt decks j' c)[j]? = decks[j]? := by
  unfold pushFrontAt
  cases h : decks[j']? with
  | none => rfl
  | some d => simp [List.getElem?_set_ne hne]

theorem dealSeq_getElem? (n : Nat) : ∀ (B : List Card) (i : Nat) (decks : List Deck)
    (j : Nat) (d : Deck), decks[j]? = some d →
    (dealSeq n i B decks)[j]? = some { d with cards := pickCards n i B j ++ d.cards } := by
  intro B
  induction B with
  | nil => intro i decks j d hd; simpa [dealSeq, pickCards] using hd
  | cons c B ih =>
    intro i decks j d hd
    by_cases hij : i % n = j
    · subst hij
      have hlen : i % n < decks.length := (List.getElem?_eq_some_iff.mp hd).1
      have hpush : pushFrontAt decks (i % n) c =
          decks.set (i % n) { d with cards := c :: d.cards } := by
        unfold pushFrontAt
        rw [hd]
      have hset : (decks.set (i % n) { d with cards := c :: d.cards })[i % n]? =
          some { d with cards := c :: d.cards } := List.getElem?_set_self hlen
      have := ih (i + 1) (pushFrontAt decks (i % n) c) (i % n)
        { d with cards := c :: d.cards } (by rw [hpush]; exact hset)
      simp only [dealSeq, this, pickCards]
      simp
    · have hget : (pushFrontAt decks (i % n) c)[j]? = some d :=
        (pushFrontAt_getElem?_ne decks j (i % n) c hij).trans hd
      have := ih (i + 1) (pushFrontAt decks (i % n) c) j d hget
      simp only [dealSeq, this, pickCards]
      have hb : (i % n == j) = false := by simpa using hij
      simp [hb]

theorem pickCards_eq (n : Nat) : ∀ (B : List Card) (i j : Nat),
    pickCards n i B j =
      (((List.range' i B.length).filter (fun p => p % n == j)).map
        (fun p => B.getD (p - i) 0)).reverse := by
  intro B
  induction B with
  | nil => intro i j; simp [pickCards]
  | cons c B ih =>
    intro i j
    have hmap : ((List.range' (i + 1) B.length).filter (fun p => p % n == j)).map
        (fun p => (c :: B).getD (p - i) 0) =
        ((List.range' (i + 1) B.length).filter (fun p => p % n == j)).map
        (fun p => B.getD (p - (i + 1)) 0) := by
      apply List.map_congr_left
      intro p hp
      have hp' : p ∈ List.range' (i + 1) B.length := (List.mem_filter.mp hp).1
      have hge : i + 1 ≤ p := by
        rcases List.mem_range'.mp hp' with ⟨m, hm, rfl⟩
        omega
      have heq : p - i = (p - (i + 1)) + 1 := by omega
      rw [heq, List.getD_cons_succ]
    have hfil : (List.range' i (B.length + 1)).filter (fun p => p % n == j) =
        (if i % n == j then [i] else []) ++
          (List.range' (i + 1) B.length).filter (fun p => p % n == j) := by
      rw [List.range'_succ, List.filter_cons]
      split <;> simp
    simp only [pickCards, List.length_cons, hfil, List.map_append, List.reverse_append, ih,
      ← hmap]
    cases hb : (i % n == j) with
    | true => simp [hb, Nat.sub_self]
    | false => simp [hb]

theorem pushHandAt_getElem?_ne (players : List Player) (j j' : Nat) (c : Card) (hne : j' ≠ j) :
    (pushHandAt players j' c)[j]? = players[j]? := by
  unfold pushHandAt
  cases h : players[j']? with
  | none => rfl
  | some p => simp [List.getElem?_set_ne hne]

theorem handPick_congr (n : Nat) : ∀ (i : Nat) (P1 P2 : List Card) (j : Nat),
    (∀ m, m < i → P1.getD m 0 = P2.getD m 0) →
    handPick n i P1 j = handPick n i P2 j := by
  intro i
  induction i with
  | zero => intro P1 P2 j h; rfl
  | succ i ih =>
    intro P1 P2 j h
    simp only [handPick, h i (Nat.lt_succ_self i),
      ih P1 P2 j (fun m hm => h m (Nat.lt_succ_of_lt hm))]

theorem dealHandsLoop_char (n : Nat) : ∀ (i : Nat) (P : List Card) (players : List Player),
    P.length = i → ∀ (j : Nat) (pl : Player), players[j]? = some pl →
    (dealHandsLoop n i (P, players)).2[j]? =
      some { pl with hand := pl.hand ++ handPick n i P j } := by
  intro i
  induction i with
  | zero =>
    intro P players hP j pl hpl
    simpa [dealHandsLoop, handPick] using hpl
  | succ i ih =>
    intro P players hP j pl hpl
    have hi : i < P.length := by omega
    have hlast : P.getLast? = some (P.getD i 0) := by
      rw [List.getLast?_eq_getElem?, hP]
      simp [List.getElem?_eq_getElem hi]
    have hdrop : P.dropLast.length = i := by
      rw [List.length_dropLast, hP]
      omega
    have hcongr : handPick n i P.dropLast j = handPick n i P j := by
      apply handPick_congr
      intro m hm
      have hm2 : P.dropLast[m]? = P[m]? := by
        rw [List.getElem?_dropLast, hP]
        simp [Nat.add_sub_cancel, hm]
      simp only [List.getD_eq_getElem?_getD, hm2]
    simp only [dealHandsLoop, hlast]
    by_cases hij : i % n = j
    · subst hij
      have hjlt : i % n < players.length := (List.getElem?_eq_some_iff.mp hpl).1
      have hpush : pushHandAt players (i % n) (P.getD i 0) =
          players.set (i % n) { pl with hand := pl.hand ++ [P.getD i 0] } := by
        unfold pushHandAt
        rw [hpl]
      have hget : (pushHandAt players (i % n) (P.getD i 0))[i % n]? =
          some { pl with hand := pl.hand ++ [P.getD i 0] } := by
        rw [hpush]
        exact List.getElem?_set_self hjlt
      have := ih P.dropLast (pushHandAt players (i % n) (P.getD i 0)) hdrop (i % n)
        { pl with hand := pl.hand ++ [P.getD i 0] } hget
      rw [this, hcongr]
      simp [handPick, List.append_assoc]
    · have hget : (pushHandAt players (i % n) (P.getD i 0))[j]? = some pl :=
        (pushHandAt_getElem?_ne players j (i % n) (P.getD i 0) hij).trans hpl
      have := ih P.dropLast (pushHandAt players (i % n) (P.getD i 0)) hdrop j pl hget
      rw [this, hcongr]
      have hb : (i % n == j) = false := by simpa using hij
      simp [handPick, hb]

theorem handPick_eq (n : Nat) : ∀ (i : Nat) (P : List Card) (j : Nat),
    handPick n i P j =
      (((List.range i).filter (fun p => p % n == j)).map (fun p => P.getD p 0)).reverse := by
  intro i
  induction i with
  | zero => intro P j; simp [handPick]
  | succ i ih =>
    intro P j
    simp only [handPick, List.range_succ, List.filter_append, List.map_append,
      List.reverse_append, ih]
    cases hb : (i % n == j) with
    | true => simp [hb]
    | false => simp [hb]

theorem dealDecks_eq (n : Nat) (pack : List Card) (hlen : pack.length = 8 * n) :
    dealDecks n pack =
      (pack.take (4 * n), dealSeq n (4 * n) (pack.drop (4 * n)) (initialDecks n)) := by
  have htake : (pack.take (4 * n)).length = 4 * n := by
    rw [List.length_take]
    omega
  have hdrop : (pack.drop (4 * n)).length = 4 * n := by
    rw [List.length_drop]
    omega
  have hsplit : pack.take (4 * n) ++ pack.drop (4 * n) = pack := List.take_append_drop _ _
  calc dealDecks n pack
      = dealDecksLoop n (pack.drop (4 * n)).length (4 * n)
          (pack.take (4 * n) ++ pack.drop (4 * n), initialDecks n) := by
        unfold dealDecks
        rw [hdrop, hsplit]
    _ = (pack.take (4 * n), dealSeq n (4 * n) (pack.drop (4 * n)) (initialDecks n)) :=
        dealDecksLoop_bridge n _ htake _ _ _

theorem initialDecks_getElem? (n j : Nat) (hj : j < n) :
    (initialDecks n)[j]? = some ⟨j + 1, []⟩ := by
  unfold initialDecks
  rw [List.getElem?_map, List.getElem?_range' 1 1 (by simpa using hj)]
  simp [Nat.add_comm]

theorem initialPlayers_getElem? (n j : Nat) (hj : j < n) :
    (initialPlayers n)[j]? = some ⟨j + 1, j, (j + 1) % n, []⟩ := by
  unfold initialPlayers
  rw [List.getElem?_map, List.getElem?_range' 1 1 (by simpa using hj)]
  simp [Nat.add_comm]

/-- C4: given a validated pack of `8*n` cards, the deal is the exact function
of the pack prescribed by the spec: deck index `j` (Deck numbered `j + 1`)
holds the pack cards at positions `4n..8n-1` congruent to `j` mod `n`, each
pushed to the front in ascending position order, and player index `j` holds
the pack cards at positions `0..4n-1` congruent to `j` mod `n`, dealt in
reverse position order and pushed to the back of the hand. -/
theorem C4_deal_exact (n : Nat) (pack : List Card) (hlen : pack.length = 8 * n)
    (j : Nat) (hj : j < n) :
    (deal n pack).decks[j]? = some { number := j + 1, cards := specDeckCards n pack j } ∧
    (deal n pack).players[j]? = some
      { number := j + 1, drawDeck := j, discardDeck := (j + 1) % n,
        hand := specHandCards n pack j } := by
  have htake : (pack.take (4 * n)).length = 4 * n := by
    rw [List.length_take]; omega
  have hdrop : (pack.drop (4 * n)).length = 4 * n := by
    rw [List.length_drop]; omega
  have hdd := dealDecks_eq n pack hlen
  constructor
  · have hchar := dealSeq_getElem? n (pack.drop (4 * n)) (4 * n) (initialDecks n) j
      ⟨j + 1, []⟩ (initialDecks_getElem? n j hj)
    have hpick : pickCards n (4 * n) (pack.drop (4 * n)) j = specDeckCards n pack j := by
      rw [pickCards_eq, hdrop]
      unfold specDeckCards
      congr 1
      apply List.map_congr_left
      intro p hp
      have hp' : p ∈ List.range' (4 * n) (4 * n) := (List.mem_filter.mp hp).1
      have hge : 4 * n ≤ p := by
        rcases List.mem_range'.mp hp' with ⟨m, hm, rfl⟩
        omega
      have : (pack.drop (4 * n))[p - 4 * n]? = pack[p]? := by
        rw [List.getElem?_drop]
        congr 1
        omega
      simp only [List.getD_eq_getElem?_getD, this]
    show (deal n pack).decks[j]? = _
    unfold deal
    rw [hdd]
    simpa [hpick] using hchar
  · have hchar := dealHandsLoop_char n (4 * n) (pack.take (4 * n)) (initialPlayers n)
      htake j ⟨j + 1, j, (j + 1) % n, []⟩ (initialPlayers_getElem? n j hj)
    have hpick : handPick n (4 * n) (pack.take (4 * n)) j = specHandCards n pack j := by
      rw [handPick_eq]
      unfold specHandCards
      congr 1
      apply List.map_congr_left
      intro p hp
      have hp' : p ∈ List.range (4 * n) := (List.mem_filter.mp hp).1
      have hlt : p < 4 * n := List.mem_range.mp hp'
      have : (pack.take (4 * n))[p]? = pack[p]? := List.getElem?_take_of_lt hlt
      simp only [List.getD_eq_getElem?_getD, this]
    show (deal n pack).players[j]? = _
    unfold deal
    rw [hdd]
    simpa [hpick] using hchar

theorem C4_witness :
    (deal 2 [1, 2, 3, 4, 5, 6, 7, 8, 9, 10, 11, 12, 13, 14, 15, 16]).decks[0]? =
      some { number := 1,
             cards := specDeckCards 2 [1, 2, 3, 4, 5, 6, 7, 8, 9, 10, 11, 12, 13, 14, 15, 16] 0 } ∧
    (deal 2 [1, 2, 3, 4, 5, 6, 7, 8, 9, 10, 11, 12, 13, 14, 15, 16]).players[0]? =
      some { number := 1, drawDeck := 0, discardDeck := 1 % 2,
             hand := specHandCards 2 [1, 2, 3, 4, 5, 6, 7, 8, 9, 10, 11, 12, 13, 14, 15, 16] 0 } :=
  C4_deal_exact 2 [1, 2, 3, 4, 5, 6, 7, 8, 9, 10, 11, 12, 13, 14, 15, 16] rfl 0 (by decide)

theorem C5_counterexample :
    (deal 1 [1, 2, 3, 4, 5, 6, 7, 8]).players.map (fun p => (p.drawDeck, p.discardDeck)) =
      [(0, 0)] := by
  decide

/-- C5 (amended): for every `n ≥ 1` and player `i ∈ [1, n]`, player `i` draws
from the Deck numbered `i` and discards to the Deck numbered `(i mod n) + 1`;
whenever `n ≥ 2` these are two distinct decks, but for `n = 1` both
references are the single Deck numbered 1. -/
theorem C5_ring_structure (n i : Nat) (hi1 : 1 ≤ i) (hin : i ≤ n) :
    ∃ p, (initialPlayers n)[i - 1]? = some p ∧ p.number = i ∧
      (∃ d, (initialDecks n)[p.drawDeck]? = some d ∧ d.number = i) ∧
      (∃ d, (initialDecks n)[p.discardDeck]? = some d ∧ d.number = (i % n) + 1) ∧
      (2 ≤ n → p.drawDeck ≠ p.discardDeck) := by
  have hj : i - 1 < n := by omega
  have hp := initialPlayers_getElem? n (i - 1) hj
  have hi : i - 1 + 1 = i := by omega
  rw [hi] at hp
  refine ⟨⟨i, i - 1, i % n, []⟩, by rw [hp], rfl, ?_, ?_, ?_⟩
  · exact ⟨⟨i, []⟩, by rw [initialDecks_getElem? n (i - 1) hj, hi], rfl⟩
  · have hmod : i % n < n := Nat.mod_lt _ (by omega)
    exact ⟨⟨i % n + 1, []⟩, by rw [initialDecks_getElem? n (i % n) hmod], rfl⟩
  · intro hn2
    show i - 1 ≠ i % n
    by_cases hieq : i = n
    · subst hieq
      rw [Nat.mod_self]
      omega
    · rw [Nat.mod_eq_of_lt (by omega)]
      omega

theorem C5_witness :
    ∃ p, (initialPlayers 2)[2 - 1]? = some p ∧ p.number = 2 ∧
      (∃ d, (initialDecks 2)[p.drawDeck]? = some d ∧ d.number = 2) ∧
      (∃ d, (initialDecks 2)[p.discardDeck]? = some d ∧ d.number = (2 % 2) + 1) ∧
      (2 ≤ 2 → p.drawDeck ≠ p.discardDeck) :=
  C5_ring_structure 2 2 (by decide) (by decide)

/-- The multiset of all cards held by the decks. -/
def deckCards (decks : List Deck) : Multiset Card :=
  (decks.map (fun d => (d.cards : Multiset Card))).sum

/-- The multiset of all cards held by the players' hands. -/
def handCards (players : List Player) : Multiset Card :=
  (players.map (fun p => (p.hand : Multiset Card))).sum

/-- The multiset of every card in the game. -/
def allCards (s : GameState) : Multiset Card :=
  deckCards s.decks + handCards s.players

/-- An arbitrary sequence of turns: each entry names the acting player index
and the outcome of that turn's random choice. -/
def runTurns (s : GameState) (ts : List (Nat × Nat)) : GameState :=
  ts.foldl (fun st t => take_turn st t.1 t.2) s

theorem map_sum_set {α : Type} (f : α → Multiset Card) :
    ∀ (l : List α) (i : Nat) (x y : α), l[i]? = some x →
    ((l.set i y).map f).sum + f x = (l.map f).sum + f y := by
  intro l
  induction l with
  | nil => intro i x y h; simp at h
  | cons a t ih =>
    intro i x y h
    cases i with
    | zero =>
      simp only [List.getElem?_cons_zero, Option.some.injEq] at h
      subst h
      simp only [List.set_cons_zero, List.map_cons, List.sum_cons]
      abel
    | succ j =>
      simp only [List.getElem?_cons_succ] at h
      have hstep := ih j x y h
      simp only [List.set_cons_succ, List.map_cons, List.sum_cons]
      rw [add_assoc, add_assoc, hstep]

theorem multiset_eraseIdx_add (hand : List Card) (di : Nat) (hdi : di < hand.length) :
    ((hand.eraseIdx di : List Card) : Multiset Card) + {hand[di]} = (hand : Multiset Card) := by
  have h2 : hand = hand.take di ++ hand[di] :: hand.drop (di + 1) := by
    conv_lhs => rw [← List.take_append_drop di hand]
    rw [List.drop_eq_getElem_cons hdi]
  conv_rhs => rw [h2]
  rw [List.eraseIdx_eq_take_drop_succ, ← Multiset.coe_add, ← Multiset.coe_add,
    ← Multiset.cons_coe, ← Multiset.singleton_add]
  abel

theorem deckCards_pushFrontAt (decks : List Deck) (j : Nat) (c : Card)
    (hj : j < decks.length) :
    deckCards (pushFrontAt decks j c) = deckCards decks + {c} ∧
    (pushFrontAt decks j c).length = decks.length := by
  have hd : decks[j]? = some decks[j] := List.getElem?_eq_getElem hj
  have hpush : pushFrontAt decks j c =
      decks.set j { decks[j] with cards := c :: decks[j].cards } := by
    unfold pushFrontAt
    rw [hd]
  constructor
  · have heq := map_sum_set (fun d => (d.cards : Multiset Card)) decks j decks[j]
      { decks[j] with cards := c :: decks[j].cards } hd
    dsimp only at heq
    rw [← Multiset.cons_coe, ← Multiset.singleton_add] at heq
    rw [hpush]
    unfold deckCards
    apply add_right_cancel (b := (decks[j].cards : Multiset Card))
    rw [heq]
    abel
  · rw [hpush]
    exact List.length_set decks j _

theorem handCards_pushHandAt (players : List Player) (j : Nat) (c : Card)
    (hj : j < players.length) :
    handCards (pushHandAt players j c) = handCards players + {c} ∧
    (pushHandAt players j c).length = players.length := by
  have hp : players[j]? = some players[j] := List.getElem?_eq_getElem hj
  have hpush : pushHandAt players j c =
      players.set j { players[j] with hand := players[j].hand ++ [c] } := by
    unfold pushHandAt
    rw [hp]
  constructor
  · have heq := map_sum_set (fun p => (p.hand : Multiset Card)) players j players[j]
      { players[j] with hand := players[j].hand ++ [c] } hp
    dsimp only at heq
    rw [← Multiset.coe_add, Multiset.coe_singleton] at heq
    rw [hpush]
    unfold handCards
    apply add_right_cancel (b := (players[j].hand : Multiset Card))
    rw [heq]
    abel
  · rw [hpush]
    exact List.length_set players j _

theorem dealSeq_conserve (n : Nat) (hn : 1 ≤ n) :
    ∀ (B : List Card) (i : Nat) (decks : List Deck), decks.length = n →
    deckCards (dealSeq n i B decks) = deckCards decks + ↑B ∧
    (dealSeq n i B decks).length = n := by
  intro B
  induction B with
  | nil => intro i decks hlen; simp [dealSeq, hlen]
  | cons c B ih =>
    intro i decks hlen
    have hj : i % n < decks.length := by
      rw [hlen]
      exact Nat.mod_lt _ (by omega)
    rcases deckCards_pushFrontAt decks (i % n) c hj with ⟨hsum, hlen2⟩
    rcases ih (i + 1) (pushFrontAt decks (i % n) c) (hlen2.trans hlen) with ⟨ihsum, ihlen⟩
    refine ⟨?_, ihlen⟩
    show deckCards (dealSeq n (i + 1) B (pushFrontAt decks (i % n) c)) = _
    rw [ihsum, hsum, ← Multiset.cons_coe, ← Multiset.singleton_add]
    abel

theorem dealHandsLoop_conserve (n : Nat) (hn : 1 ≤ n) :
    ∀ (i : Nat) (P : List Card) (players : List Player), P.length = i →
    players.length = n →
    handCards ((dealHandsLoop n i (P, players)).2) = handCards players + ↑P ∧
    (dealHandsLoop n i (P, players)).1 = [] := by
  intro i
  induction i with
  | zero =>
    intro P players hP hlen
    have : P = [] := List.length_eq_zero.mp hP
    subst this
    simp [dealHandsLoop]
  | succ i ih =>
    intro P players hP hlen
    have hne : P ≠ [] := by
      intro h
      rw [h] at hP
      simp at hP
    have hlast : P.getLast? = some (P.getLast hne) := List.getLast?_eq_getLast P hne
    have hdrop : P.dropLast.length = i := by
      rw [List.length_dropLast, hP]
      omega
    have hj : i % n < players.length := by
      rw [hlen]
      exact Nat.mod_lt _ (by omega)
    rcases handCards_pushHandAt players (i % n) (P.getLast hne) hj with ⟨hsum, hlen2⟩
    rcases ih P.dropLast (pushHandAt players (i % n) (P.getLast hne)) hdrop
      (hlen2.trans hlen) with ⟨ihsum, ihnil⟩
    have hPsplit : (P : Multiset Card) = ↑P.dropLast + {P.getLast hne} := by
      conv_lhs => rw [← List.dropLast_concat_getLast hne]
      rw [← Multiset.coe_add, Multiset.coe_singleton]
    have hstep : dealHandsLoop n (i + 1) (P, players) =
        dealHandsLoop n i (P.dropLast, pushHandAt players (i % n) (P.getLast hne)) := by
      simp only [dealHandsLoop, hlast]
    rw [hstep]
    constructor
    · rw [ihsum, hsum, hPsplit]
      abel
    · exact ihnil

theorem deckCards_initialDecks (n : Nat) : deckCards (initialDecks n) = 0 := by
  unfold deckCards initialDecks
  rw [List.map_map]
  apply List.sum_eq_zero
  intro x hx
  rcases List.mem_map.mp hx with ⟨i, -, rfl⟩
  simp

theorem handCards_initialPlayers (n : Nat) : handCards (initialPlayers n) = 0 := by
  unfold handCards initialPlayers
  rw [List.map_map]
  apply List.sum_eq_zero
  intro x hx
  rcases List.mem_map.mp hx with ⟨i, -, rfl⟩
  simp

theorem length_initialDecks (n : Nat) : (initialDecks n).length = n := by
  simp [initialDecks]

theorem length_initialPlayers (n : Nat) : (initialPlayers n).length = n := by
  simp [initialPlayers]

theorem allCards_deal (n : Nat) (hn : 1 ≤ n) (pack : List Card)
    (hlen : pack.length = 8 * n) :
    allCards (deal n pack) = (pack : Multiset Card) := by
  have htake : (pack.take (4 * n)).length = 4 * n := by
    rw [List.length_take]; omega
  have hdd := dealDecks_eq n pack hlen
  rcases dealSeq_conserve n hn (pack.drop (4 * n)) (4 * n) (initialDecks n)
    (length_initialDecks n) with ⟨hdsum, -⟩
  rcases dealHandsLoop_conserve n hn (4 * n) (pack.take (4 * n)) (initialPlayers n)
    htake (length_initialPlayers n) with ⟨hhsum, -⟩
  unfold deal allCards
  rw [hdd]
  show deckCards (dealSeq n (4 * n) (pack.drop (4 * n)) (initialDecks n)) +
    handCards ((dealHandsLoop n (4 * n) (pack.take (4 * n), initialPlayers n)).2) = _
  rw [hdsum, hhsum, deckCards_initialDecks, handCards_initialPlayers, zero_add, zero_add]
  rw [add_comm, Multiset.coe_add, List.take_append_drop]

theorem allCards_turn_core (s : GameState) (i : Nat) (p : Player) (dd cd : Deck)
    (nc : Card) (rest newHand : List Card) (disc : Card)
    (hp : s.players[i]? = some p)
    (hd : s.decks[p.drawDeck]? = some dd)
    (hc : dd.cards = nc :: rest)
    (hcd : (s.decks.set p.drawDeck { dd with cards := rest })[p.discardDeck]? = some cd)
    (hbal : (newHand : Multiset Card) + {disc} = (p.hand : Multiset Card) + {nc}) :
    allCards
      { decks := (s.decks.set p.drawDeck { dd with cards := rest }).set p.discardDeck
          { cd with cards := cd.cards ++ [disc] },
        players := s.players.set i { p with hand := newHand } } = allCards s := by
  have e1 := map_sum_set (fun d => (d.cards : Multiset Card)) s.decks p.drawDeck dd
    { dd with cards := rest } hd
  dsimp only at e1
  rw [hc, ← Multiset.cons_coe, ← Multiset.singleton_add] at e1
  have hnc : deckCards (s.decks.set p.drawDeck { dd with cards := rest }) + {nc} =
      deckCards s.decks := by
    unfold deckCards
    apply add_right_cancel (b := (rest : Multiset Card))
    rw [← add_assoc] at e1
    exact e1
  have e2 := map_sum_set (fun d => (d.cards : Multiset Card))
    (s.decks.set p.drawDeck { dd with cards := rest }) p.discardDeck cd
    { cd with cards := cd.cards ++ [disc] } hcd
  dsimp only at e2
  rw [← Multiset.coe_add, Multiset.coe_singleton] at e2
  have hdisc : deckCards ((s.decks.set p.drawDeck { dd with cards := rest }).set p.discardDeck
      { cd with cards := cd.cards ++ [disc] }) =
      deckCards (s.decks.set p.drawDeck { dd with cards := rest }) + {disc} := by
    unfold deckCards
    apply add_right_cancel (b := (cd.cards : Multiset Card))
    rw [e2]
    abel
  have e3 := map_sum_set (fun q => (q.hand : Multiset Card)) s.players i p
    { p with hand := newHand } hp
  dsimp only at e3
  unfold allCards
  show deckCards _ + handCards (s.players.set i { p with hand := newHand }) = _
  apply add_right_cancel (b := (p.hand : Multiset Card))
  rw [hdisc]
  unfold handCards
  rw [add_assoc, e3]
  unfold deckCards at hnc
  calc (((s.decks.set p.drawDeck { dd with cards := rest }).map
          (fun d => (d.cards : Multiset Card))).sum + {disc}) +
        (((s.players.map (fun q => (q.hand : Multiset Card))).sum) + ↑newHand) =
      ((s.decks.set p.drawDeck { dd with cards := rest }).map
          (fun d => (d.cards : Multiset Card))).sum +
        ((s.players.map (fun q => (q.hand : Multiset Card))).sum) +
        (↑newHand + ({disc} : Multiset Card)) := by abel
    _ = ((s.decks.set p.drawDeck { dd with cards := rest }).map
          (fun d => (d.cards : Multiset Card))).sum +
        ((s.players.map (fun q => (q.hand : Multiset Card))).sum) +
        (↑p.hand + ({nc} : Multiset Card)) := by rw [hbal]
    _ = (((s.decks.set p.drawDeck { dd with cards := rest }).map
          (fun d => (d.cards : Multiset Card))).sum + {nc}) +
        ((s.players.map (fun q => (q.hand : Multiset Card))).sum) + ↑p.hand := by abel
    _ = (s.decks.map (fun d => (d.cards : Multiset Card))).sum +
        (s.players.map (fun q => (q.hand : Multiset Card))).sum + ↑p.hand := by rw [hnc]

theorem allCards_take_turn (s : GameState) (i k : Nat) :
    allCards (take_turn s i k) = allCards s := by
  cases hp : s.players[i]? with
  | none => simp [take_turn, hp]
  | some p =>
    cases hd : s.decks[p.drawDeck]? with
    | none => simp [take_turn, hp, hd]
    | some dd =>
      cases hc : dd.cards with
      | nil => simp [take_turn, hp, hd, hc]
      | cons nc rest =>
        cases hcd : (s.decks.set p.drawDeck { dd with cards := rest })[p.discardDeck]? with
        | none => simp [take_turn, hp, hd, hc, hcd]
        | some cd =>
          cases hsel : select_discard_card p.number p.hand k with
          | none =>
            have ht : take_turn s i k =
                { decks := (s.decks.set p.drawDeck { dd with cards := rest }).set p.discardDeck
                    { cd with cards := cd.cards ++ [nc] },
                  players := s.players.set i { p with hand := p.hand } } := by
              simp [take_turn, hp, hd, hc, hsel, hcd]
            rw [ht]
            exact allCards_turn_core s i p dd cd nc rest p.hand nc hp hd hc hcd rfl
          | some di =>
            rcases select_discard_card_spec hsel with ⟨hdi, -, -⟩
            have hgetD : p.hand[di]? = some p.hand[di] := List.getElem?_eq_getElem hdi
            have ht : take_turn s i k =
                { decks := (s.decks.set p.drawDeck { dd with cards := rest }).set p.discardDeck
                    { cd with cards := cd.cards ++ [p.hand[di]] },
                  players := s.players.set i
                    { p with hand := p.hand.eraseIdx di ++ [nc] } } := by
              simp [take_turn, hp, hd, hc, hsel, hcd, hgetD]
            rw [ht]
            apply allCards_turn_core s i p dd cd nc rest (p.hand.eraseIdx di ++ [nc])
              p.hand[di] hp hd hc hcd
            rw [← Multiset.coe_add, Multiset.coe_singleton, add_assoc,
              add_comm ({nc} : Multiset Card), ← add_assoc, multiset_eraseIdx_add p.hand di hdi]

theorem allCards_runTurns (ts : List (Nat × Nat)) : ∀ (s : GameState),
    allCards (runTurns s ts) = allCards s := by
  induction ts with
  | nil => intro s; rfl
  | cons t ts ih =>
    intro s
    show allCards (runTurns (take_turn s t.1 t.2) ts) = _
    rw [ih, allCards_take_turn]

/-- C3: card conservation — after dealing a validated pack of `8*n` cards,
every state reachable by any sequence of turns (any acting players, any
random choices) holds exactly the original pack as the multiset of all cards
across all decks and all hands: no card is created, destroyed or
duplicated. -/
theorem C3_card_conservation (n : Nat) (hn : 1 ≤ n) (pack : List Card)
    (hlen : pack.length = 8 * n) (ts : List (Nat × Nat)) :
    allCards (runTurns (deal n pack) ts) = (pack : Multiset Card) := by
  rw [allCards_runTurns, allCards_deal n hn pack hlen]

theorem C3_witness :
    allCards (runTurns (deal 1 [5, 6, 7, 8, 1, 2, 3, 4]) [(0, 0), (0, 1), (0, 2)]) =
      ([5, 6, 7, 8, 1, 2, 3, 4] : List Card) :=
  C3_card_conservation 1 (by decide) [5, 6, 7, 8, 1, 2, 3, 4] rfl [(0, 0), (0, 1), (0, 2)]

/-- The winner check `player.has_winning_hand()` for the player at index `i`
(false on a dangling index, which cannot happen in the Rust program). -/
def winsAt (s : GameState) (i : Nat) : Bool :=
  match s.players[i]? with
  | some p => has_winning_hand p.hand
  | none => false

/-- One round of the game loop body `for player in &mut players { ... }`:
the listed player indices are processed in order, each paired with its turn's
random outcome.  `Except.error s` models `break 'game` with the state at the
moment of the break; `Except.ok s` models falling through to the next
round. -/
def roundFrom (s : GameState) : List (Nat × Nat) → Except GameState GameState
  | [] => Except.ok s
  | (i, k) :: rest =>
    if winsAt s i then Except.error s
    else
      let s2 := take_turn s i k
      if winsAt s2 i then Except.error s2
      else roundFrom s2 rest

/-- The unbounded `'game: loop`: every round visits the players in vector
order (index `0 .. players.length - 1`, i.e. ascending player number).  The
list argument supplies each round's random outcomes and serves as fuel:
`none` means the supplied fuel ran out (the Rust loop is unbounded), `some s`
models `break 'game` in state `s`. -/
def runGame (s : GameState) : List (List Nat) → Option GameState
  | [] => none
  | ks :: kss =>
    match roundFrom s ((List.range s.players.length).zip ks) with
    | Except.error sFin => some sFin
    | Except.ok s2 => runGame s2 kss

/-- C6: the game loop visits players in fixed ascending order without
skipping (an empty draw deck is a no-op turn, not a removal from rotation),
checks `has_winning_hand` immediately before and immediately after each
player's turn, stops at the first check that returns true — even mid-round —
and changes no state between the winning check and termination: the state at
the break is exactly the state at which the winning check succeeded, and a
break only ever happens on a true check. -/
theorem C6_game_loop :
    (∀ (s : GameState) (i k : Nat) (rest : List (Nat × Nat)),
      winsAt s i = true → roundFrom s ((i, k) :: rest) = Except.error s) ∧
    (∀ (s : GameState) (i k : Nat) (rest : List (Nat × Nat)),
      winsAt s i = false → winsAt (take_turn s i k) i = true →
      roundFrom s ((i, k) :: rest) = Except.error (take_turn s i k)) ∧
    (∀ (s : GameState) (i k : Nat) (rest : List (Nat × Nat)),
      winsAt s i = false → winsAt (take_turn s i k) i = false →
      roundFrom s ((i, k) :: rest) = roundFrom (take_turn s i k) rest) ∧
    (∀ (s : GameState) (l : List (Nat × Nat)) (sFin : GameState),
      roundFrom s l = Except.error sFin →
      ∃ i, i ∈ l.map Prod.fst ∧ winsAt sFin i = true) ∧
    (∀ (s : GameState) (i k : Nat) (p : Player) (dd : Deck),
      s.players[i]? = some p → s.decks[p.drawDeck]? = some dd → dd.cards = [] →
      take_turn s i k = s) ∧
    (∀ (s : GameState) (ks : List Nat) (kss : List (List Nat)) (sFin : GameState),
      roundFrom s ((List.range s.players.length).zip ks) = Except.error sFin →
      runGame s (ks :: kss) = some sFin) ∧
    (∀ (s : GameState) (ks : List Nat) (kss : List (List Nat)) (s2 : GameState),
      roundFrom s ((List.range s.players.length).zip ks) = Except.ok s2 →
      runGame s (ks :: kss) = runGame s2 kss) := by
  refine ⟨?_, ?_, ?_, ?_, ?_, ?_, ?_⟩
  · intro s i k rest h
    simp [roundFrom, h]
  · intro s i k rest h1 h2
    simp [roundFrom, h1, h2]
  · intro s i k rest h1 h2
    simp [roundFrom, h1, h2]
  · intro s l
    induction l generalizing s with
    | nil => intro sFin h; simp [roundFrom] at h
    | cons t rest ih =>
      intro sFin h
      rcases t with ⟨i, k⟩
      by_cases h1 : winsAt s i = true
      · rw [(by simp [roundFrom, h1] : roundFrom s ((i, k) :: rest) = Except.error s)] at h
        cases h
        exact ⟨i, by simp, h1⟩
      · rw [Bool.not_eq_true] at h1
        by_cases h2 : winsAt (take_turn s i k) i = true
        · rw [(by simp [roundFrom, h1, h2] : roundFrom s ((i, k) :: rest) =
            Except.error (take_turn s i k))] at h
          cases h
          exact ⟨i, by simp, h2⟩
        · rw [Bool.not_eq_true] at h2
          rw [(by simp [roundFrom, h1, h2] : roundFrom s ((i, k) :: rest) =
            roundFrom (take_turn s i k) rest)] at h
          rcases ih (take_turn s i k) sFin h with ⟨i2, hmem, hwin⟩
          exact ⟨i2, by simp at hmem ⊢; exact Or.inr hmem, hwin⟩
  · intro s i k p dd hp hd hc
    simp [take_turn, hp, hd, hc]
  · intro s ks kss sFin h
    simp [runGame, h]
  · intro s ks kss s2 h
    simp [runGame, h]

theorem C6_witness :
    roundFrom ⟨[⟨1, []⟩], [⟨1, 0, 0, [4, 4, 4, 4]⟩]⟩ [(0, 0)] =
      Except.error ⟨[⟨1, []⟩], [⟨1, 0, 0, [4, 4, 4, 4]⟩]⟩ :=
  C6_game_loop.1 ⟨[⟨1, []⟩], [⟨1, 0, 0, [4, 4, 4, 4]⟩]⟩ 0 0 [] (by decide)

/-- Model of Rust `str::parse::<usize>` on one line of the pack file: an
optional leading `+` sign followed by at least one ASCII digit, with the
value below `2^64` (64-bit `usize`); anything else fails. -/
def parseUsize (s : List Char) : Option Nat :=
  let digits := match s with
    | '+' :: rest => rest
    | _ => s
  if digits.isEmpty then none
  else if digits.all Char.isDigit then
    let v := digits.foldl (fun acc c => acc * 10 + (c.toNat - 48)) 0
    if v < 2 ^ 64 then some v else none
  else none

/-- The parsing loop of `get_pack`: each line must parse as a `usize`; the
first failing line aborts the whole read with an error. -/
def parseAll : List (List Char) → Except String (List Card)
  | [] => Except.ok []
  | l :: ls =>
    match parseUsize l with
    | none => Except.error "Could not parse line as a possitive integer!"
    | some v =>
      match parseAll ls with
      | Except.error e => Except.error e
      | Except.ok vs => Except.ok (v :: vs)

/-- `get_pack` with the file I/O abstracted to the list of lines read from
the pack file: parse every line in order, then fail unless the parsed count
equals `8 * n` AS COMPUTED IN `usize`.  The source multiplies `8 * n` in
`usize` arithmetic, so for `n ≥ 2^61` (accepted by `get_n`) the comparison is
against `(8 * n) mod 2^64` in a release build; this model follows the release
semantics.  (A build with overflow checks panics at the multiplication
instead of returning at all; that divergence is likewise only reachable at
`n ≥ 2^61`.) -/
def get_pack (n : Nat) (lines : List (List Char)) : Except String (List Card) :=
  match parseAll lines with
  | Except.error e => Except.error e
  | Except.ok pack =>
    if pack.length ≠ (8 * n) % 2 ^ 64 then
      Except.error "A decks must have 8n cards, but the supplied deck had another count."
    else Except.ok pack

theorem parseAll_ok : ∀ (lines : List (List Char)) (pack : List Card),
    parseAll lines = Except.ok pack →
    pack = lines.filterMap parseUsize ∧ ∀ l ∈ lines, ∃ v, parseUsize l = some v := by
  intro lines
  induction lines with
  | nil =>
    intro pack h
    simp [parseAll] at h
    simp [h]
  | cons l ls ih =>
    intro pack h
    unfold parseAll at h
    cases hv : parseUsize l with
    | none => rw [hv] at h; cases h
    | some v =>
      rw [hv] at h
      cases hrest : parseAll ls with
      | error e => rw [hrest] at h; cases h
      | ok vs =>
        rw [hrest] at h
        cases h
        rcases ih vs hrest with ⟨hvs, hall⟩
        refine ⟨?_, ?_⟩
        · simp [List.filterMap_cons, hv, hvs]
        · intro l2 hl2
          rcases List.mem_cons.mp hl2 with h2 | h2
          · exact h2 ▸ ⟨v, hv⟩
          · exact hall l2 h2

theorem parseAll_error_of_none : ∀ (lines : List (List Char)),
    (∃ l ∈ lines, parseUsize l = none) → ∃ e, parseAll lines = Except.error e := by
  intro lines
  induction lines with
  | nil => intro h; simp at h
  | cons l ls ih =>
    intro h
    unfold parseAll
    cases hv : parseUsize l with
    | none => exact ⟨_, rfl⟩
    | some v =>
      rcases h with ⟨l2, hmem, hnone⟩
      rcases List.mem_cons.mp hmem with h2 | h2
      · rw [h2] at hnone; rw [hv] at hnone; cases hnone
      · rcases ih ⟨l2, h2, hnone⟩ with ⟨e, he⟩
        rw [he]
        exact ⟨e, rfl⟩

theorem parseAll_ok_of_all_some : ∀ (lines : List (List Char)),
    (∀ l ∈ lines, ∃ v, parseUsize l = some v) →
    parseAll lines = Except.ok (lines.filterMap parseUsize) := by
  intro lines
  induction lines with
  | nil => intro h; simp [parseAll]
  | cons l ls ih =>
    intro h
    rcases h l (by simp) with ⟨v, hv⟩
    unfold parseAll
    rw [hv, ih (fun l2 h2 => h l2 (List.mem_cons_of_mem l h2))]
    simp [List.filterMap_cons, hv]

/-- C9 counterexample: the claim "get_pack returns an error whenever the
number of parsed cards differs from 8*n" fails at the concrete input
`n = 2^61` with an empty pack file: the `usize` product `8 * n` wraps to `0`,
so the 0-card pack passes the size check and `get_pack` returns `Ok([])`
even though `0 ≠ 8 * 2^61`. -/
theorem C9_counterexample : get_pack (2 ^ 61) [] = Except.ok [] := by
  unfold get_pack
  norm_num [parseAll]

/-- C9 (amended): `get_pack` returns an error rather than a pack whenever any
line fails to parse as a non-negative integer or the number of parsed cards
differs from the `usize` product `(8 * n) mod 2^64`; on success it returns
exactly the parsed cards in input line order, with exactly `(8 * n) mod 2^64`
of them.  Since `(8 * n) mod 2^64 = 8 * n` whenever `8 * n < 2^64`, for every
player count `n < 2^61` the dealing code only ever runs on a pack of exactly
`8*n` cards. -/
theorem C9_get_pack_validation :
    (∀ (n : Nat) (lines : List (List Char)) (pack : List Card),
      get_pack n lines = Except.ok pack →
      pack = lines.filterMap parseUsize ∧ pack.length = (8 * n) % 2 ^ 64 ∧
      ∀ l ∈ lines, ∃ v, parseUsize l = some v) ∧
    (∀ (n : Nat) (lines : List (List Char)),
      (∃ l ∈ lines, parseUsize l = none) → ∃ e, get_pack n lines = Except.error e) ∧
    (∀ (n : Nat) (lines : List (List Char)),
      (∀ l ∈ lines, ∃ v, parseUsize l = some v) →
      (lines.filterMap parseUsize).length ≠ (8 * n) % 2 ^ 64 →
      ∃ e, get_pack n lines = Except.error e) ∧
    (∀ n : Nat, 8 * n < 2 ^ 64 → (8 * n) % 2 ^ 64 = 8 * n) := by
  refine ⟨?_, ?_, ?_, ?_⟩
  · intro n lines pack h
    unfold get_pack at h
    cases hpa : parseAll lines with
    | error e => rw [hpa] at h; cases h
    | ok pack0 =>
      rw [hpa] at h
      have h2 : (if pack0.length ≠ (8 * n) % 2 ^ 64 then
          (Except.error "A decks must have 8n cards, but the supplied deck had another count." :
            Except String (List Card))
        else Except.ok pack0) = Except.ok pack := h
      by_cases hlen : pack0.length ≠ (8 * n) % 2 ^ 64
      · rw [if_pos hlen] at h2; cases h2
      · rw [if_neg hlen] at h2
        cases h2
        rcases parseAll_ok lines _ hpa with ⟨hfm, hall⟩
        exact ⟨hfm, by omega, hall⟩
  · intro n lines h
    rcases parseAll_error_of_none lines h with ⟨e, he⟩
    exact ⟨e, by unfold get_pack; rw [he]⟩
  · intro n lines hall hlen
    have hpa := parseAll_ok_of_all_some lines hall
    refine ⟨"A decks must have 8n cards, but the supplied deck had another count.", ?_⟩
    simp only [get_pack, hpa]
    rw [if_pos hlen]
  · intro n h
    exact Nat.mod_eq_of_lt h

theorem C9_witness :
    ∃ e, get_pack 1 [['a'], ['1']] = Except.error e :=
  C9_get_pack_validation.2.1 1 [['a'], ['1']] ⟨['a'], by decide, by decide⟩

end Cards
